import Mathlib

set_option linter.unusedVariables false

/-!
Verification of the atomai inference-support layer: a shallow embedding of
src/atomai/predictors/epredictor.py and src/atomai/utils/nn.py.

Numeric arrays (numpy arrays, torch tensors) are modelled as (nested) lists of
exact rationals; fallible Python code returns Except over an error kind mirroring
the Python exception that is raised. Dictionaries keyed by integers or strings
are modelled as association lists in insertion order (Python dicts preserve
insertion order and cannot hold a key twice).
-/

/-- Kinds of Python exceptions raised by the embedded code. -/
inductive PyErr where
  | typeError (msg : String)
  | keyError (key : Nat)
  | valueError (msg : String)
  | syntaxError (msg : String)
  | zeroDivisionError
  deriving DecidableEq, Repr

/-! ## src/atomai/utils/nn.py -/

/-- A model state dict: an ordered mapping from parameter name to its tensor,
tensors modelled as flat lists of exact rationals. -/
abbrev StateDict := List (String × List ℚ)

/-- Elementwise tensor addition. Snapshots entering `average_weights` are
structurally identical, so the zipped lists always have equal length. -/
def vecAdd (a b : List ℚ) : List ℚ := List.zipWith (fun x y => x + y) a b

/-- Python `sum(w_aver)` over a list of tensors: the sum starts from the int 0,
which broadcasting turns into the first tensor at the first addition. -/
def sumTensors : List (List ℚ) → List ℚ
  | [] => []
  | v :: rest => rest.foldl vecAdd v

/-- `sum(w_aver) / float(len(w_aver))`: elementwise division by a scalar. -/
def divTensor (v : List ℚ) (n : Nat) : List ℚ := v.map (fun x => x / (n : ℚ))

/-- The inner double loop of `average_weights` (nn.py lines 68-72): gather, over
all models of the ensemble in order, every parameter whose name equals `name`. -/
def collect (ensemble : List StateDict) (name : String) : List (List ℚ) :=
  (ensemble.map (fun model => (model.filter (fun nv => nv.1 == name)).map Prod.snd)).flatten

/-- The in-place `ensemble_state_dict[name].copy_(...)` (nn.py line 73), modelled
as replacing the value stored under `name`. -/
def dictUpdate (d : StateDict) (name : String) (v : List ℚ) : StateDict :=
  d.map (fun nv => if nv.1 = name then (nv.1, v) else nv)

/-- The write of the average into snapshot 0: `ensemble_state_dict` is
`ensemble[0]`, so its mutation is visible at index 0 of the ensemble. -/
def updAt0 (ens : List StateDict) (name : String) (v : List ℚ) : List StateDict :=
  match ens with
  | [] => []
  | d0 :: rest => dictUpdate d0 name v :: rest

/-- The outer loop of `average_weights` (nn.py lines 67-73): for each parameter
name of snapshot 0, collect that parameter from the current state of every model
(snapshot 0 included, with its earlier names already overwritten) and overwrite
snapshot 0's tensor with the average. -/
def avgLoop : List String → List StateDict → List StateDict
  | [], ens => ens
  | name :: rest, ens =>
    let w_aver := collect ens name
    avgLoop rest (updAt0 ens name (divTensor (sumTensors w_aver) w_aver.length))

/-- nn.py lines 53-74 (`average_weights`). `ensemble[0]` raises KeyError when the
ensemble is empty. The function mutates the snapshot stored at index 0 in place
and returns it, so the embedding returns the pair
(ensemble after the call, returned state dict): the caller observes that the
returned dict and the post-call `ensemble[0]` are one and the same. -/
def average_weights (ensemble : List StateDict) :
    Except PyErr (List StateDict × StateDict) :=
  match ensemble with
  | [] => .error (.keyError 0)
  | d0 :: rest =>
    let names := d0.map Prod.fst
    let ens₁ := avgLoop names (d0 :: rest)
    .ok (ens₁, ens₁.headD [])

/-- Python `min` over a list: ValueError on an empty sequence. -/
def pyMin (g : List ℚ) : Except PyErr ℚ :=
  match g with
  | [] => .error (.valueError "min() arg is an empty sequence")
  | x :: xs => .ok (xs.foldl min x)

/-- The value Python `min` returns on a non-empty list (0 on the empty list,
where Python would raise instead; used only on the non-empty side). -/
def minD (g : List ℚ) : ℚ :=
  match g with
  | [] => 0
  | x :: xs => xs.foldl min x

/-- nn.py lines 163-173 (`combine_classes_`): for each group in order, take its
minimum, then replace (group element by group element, via the boolean-mask
assignment) every occurrence of that element by the minimum. -/
def combine_classes_ (classes_all : List ℚ) (classes_to_combine : List (List ℚ)) :
    Except PyErr (List ℚ) :=
  classes_to_combine.foldlM (fun arr comb =>
    match pyMin comb with
    | .error e => .error e
    | .ok cls_min =>
      .ok (comb.foldl (fun a c => a.map (fun x => if x = c then cls_min else x)) arr))
    classes_all

/-- Insert a value into a sorted duplicate-free list, keeping it sorted and
duplicate-free. -/
def insertSorted (x : ℚ) : List ℚ → List ℚ
  | [] => [x]
  | y :: ys => if x < y then x :: y :: ys else if x = y then y :: ys else y :: insertSorted x ys

/-- `np.unique`: the sorted list of distinct values of the input. -/
def npUnique (xs : List ℚ) : List ℚ := xs.foldr insertSorted []

/-- nn.py lines 176-188 (`renumerate_classes_`).
`diff = np.unique(classes) - np.arange(len(np.unique(classes)))` subtracts each
position index from the sorted distinct values; `diff_d` maps each distinct value
to its diff; every class is then shifted down by its diff (all classes occur in
the unique list, so the dict lookup always succeeds); the `np.float` conversion
is the identity here since values are exact rationals already. -/
def renumerate_classes_ (classes : List ℚ) (start_from_1 : Bool) : List ℚ :=
  let u := npUnique classes
  let diff := List.zipWith (fun cl (i : Nat) => cl - (i : ℚ)) u (List.range u.length)
  let diff_d := u.zip diff
  let classes_renum := classes.map (fun cl => cl - ((diff_d.lookup cl).getD 0))
  if start_from_1 then classes_renum.map (fun x => x + 1) else classes_renum

/-- A per-image detection array: rows of coordinates with a trailing class label. -/
abbrev Mat := List (List ℚ)

/-- A coordinate/class dictionary, keyed by image index. -/
abbrev CoordDict := List (Nat × Mat)

/-- The key list of a coordinate/class dictionary. -/
def keysOf (d : CoordDict) : List Nat := d.map Prod.fst

/-- numpy column read `m[:, -1]`: the last element of every row. -/
def lastCol (m : Mat) : List ℚ := m.map (fun row => row.getLastD 0)

/-- numpy column write `m[:, -1] = v`. -/
def setLastCol (m : Mat) (v : List ℚ) : Mat :=
  List.zipWith (fun row x => row.set (row.length - 1) x) m v

/-- Python dict item assignment `d[k] = m` for a key already present. -/
def dictSet (d : CoordDict) (k : Nat) (m : Mat) : CoordDict :=
  d.map (fun kv => if kv.1 = k then (kv.1, m) else kv)

/-- All columns except the last: the coordinate part of a detection array. -/
def coordPart (m : Mat) : Mat := m.map (fun row => row.dropLast)

/-- Relation between an input dictionary and a result dictionary stating that
only class columns were touched: same keys and, entry by entry, same row count,
same row lengths and same coordinate columns. -/
def shapePreserved (d d2 : CoordDict) : Prop :=
  keysOf d2 = keysOf d ∧
  ∀ k m, d.lookup k = some m →
    ∃ m2, d2.lookup k = some m2 ∧
      m2.map (fun r => r.length) = m.map (fun r => r.length) ∧
      coordPart m2 = coordPart m

/-- The shared loop shape of `combine_classes` (nn.py lines 155-157) and
`renumerate_classes` (lines 198-200): iterate i over `range(len(dict))`, read
entry i (KeyError when the key is absent), transform its last column, write it
back. The loop runs on `copy.deepcopy` of the caller's dictionary, so value
semantics is exact: the caller's dictionary is untouched whatever happens. -/
def applyLastColAux (g : List ℚ → Except PyErr (List ℚ)) :
    List Nat → CoordDict → Except PyErr CoordDict
  | [], d => .ok d
  | i :: rest, d =>
    match d.lookup i with
    | none => .error (.keyError i)
    | some m =>
      match g (lastCol m) with
      | .error e => .error e
      | .ok v => applyLastColAux g rest (dictSet d i (setLastCol m v))

/-- nn.py lines 191-201 (`renumerate_classes`): iterates the deep-copied
dictionary by integer position and renumerates every last column; the caller's
`start_from_1` is accepted but the inner call passes the literal `True`
(line 200), so the parameter is ignored. -/
def renumerate_classes (coord_class_dict : CoordDict) (start_from_1 : Bool) :
    Except PyErr CoordDict :=
  applyLastColAux (fun col => .ok (renumerate_classes_ col true))
    (List.range coord_class_dict.length) coord_class_dict

/-- nn.py lines 148-160 (`combine_classes`): combines the groups on every last
column of the deep copy, then (by default) renumerates the result. -/
def combine_classes (coord_class_dict : CoordDict) (classes_to_combine : List (List ℚ))
    (renumerate : Bool) : Except PyErr CoordDict :=
  match applyLastColAux (fun col => combine_classes_ col classes_to_combine)
      (List.range coord_class_dict.length) coord_class_dict with
  | .error e => .error e
  | .ok d₁ => if renumerate then renumerate_classes d₁ true else .ok d₁

/-! ## src/atomai/predictors/epredictor.py -/

/-- The configuration fields `EnsemblePredictor.__init__` stores. The skeleton,
the ensemble and the torch device live outside the validated configuration and
carry no information the claims need. -/
structure EPState where
  data_type : String
  output_type : String
  nb_classes : Option Nat
  in_dim : Option (List Nat)
  out_dim : Option (List Nat)
  output_shape : Option (List Nat)
  deriving DecidableEq, Repr

/-- Modelled from the spec: the base class `BasePredictor`
(src/atomai/predictors/predictor.py) is not part of src/. Per spec sections 4.1
and 9 its role during construction is a lifecycle initialization step, invoked as
`super().__super__()` on epredictor.py line 25, modelled as a no-op that
succeeds. -/
def basePredictorInit : Except PyErr Unit := .ok ()

/-- CPython builtin `all` takes exactly one argument, so the call
`all(in_dim, out_dim)` on epredictor.py line 29 raises TypeError
unconditionally, whatever the two values are. -/
def pyAllTwoArgs (_a _b : Option (List Nat)) : Except PyErr Bool :=
  .error (.typeError "all() takes exactly one argument (2 given)")

/-- epredictor.py lines 13-50 (`EnsemblePredictor.__init__`), as a function of
the configuration arguments. Device selection (lines 33-38, ambient
`torch.cuda` state) and the verbosity flags are omitted: every path past
line 29 is unreachable because `pyAllTwoArgs` always raises, and neither
influences the stored validated configuration. -/
def EnsemblePredictor_init (data_type output_type : String) (nb_classes : Option Nat)
    (in_dim out_dim : Option (List Nat)) : Except PyErr EPState :=
  match basePredictorInit with
  | .error e => .error e
  | .ok _ =>
    if output_type ∉ (["image", "spectra"] : List String) then
      .error (.typeError "Supported output types are \x27image\x27 and \x27spectra\x27")
    else
      let inout := [data_type, output_type]
      match pyAllTwoArgs in_dim out_dim with
      | .error e => .error e
      | .ok inout_d =>
        if (inout = ["image", "spectra"] ∨ inout = ["spectra", "image"]) ∧ inout_d then
          .error (.typeError "Specify input (in_dim) & output (out_dim) dimensions")
        else
          .ok ⟨data_type, output_type, nb_classes, in_dim, out_dim, none⟩

/-- Python truthiness of `self.nb_classes` (both None and 0 are falsy). -/
def nbTruthy : Option Nat → Bool
  | none => false
  | some c => c != 0

/-- epredictor.py lines 52-73 (`_set_output_shape`), as a function of the
configuration fields it reads and of `data.shape`; the result is what gets
cached in `self.output_shape`. Lines 60 and 69 read `out_shape = (*data.shape)`:
a starred expression in plain parentheses is a Python SyntaxError, raised when
the module is compiled, so neither branch — nor, strictly, any import of the
module — can produce a value; those two branches map to that error. Unpacking
`*self.out_dim` when `out_dim` is None raises TypeError; `len(data)` is the
leading dimension of `data.shape`. -/
def _set_output_shape (data_type output_type : String) (nb_classes : Option Nat)
    (out_dim : Option (List Nat)) (dataShape : List Nat) : Except PyErr (List Nat) :=
  if data_type = "image" ∧ output_type = "image" then
    if nbTruthy nb_classes then
      .ok (dataShape ++ [nb_classes.getD 0])
    else
      .error (.syntaxError "cannot use starred expression here")
  else if data_type = "spectra" ∧ output_type = "image" then
    match out_dim with
    | none => .error (.typeError "Value after * must be an iterable, not NoneType")
    | some od =>
      if nbTruthy nb_classes then
        .ok (dataShape.headD 0 :: (od ++ [nb_classes.getD 0]))
      else
        .ok (dataShape.headD 0 :: od)
  else if data_type = "image" ∧ output_type = "spectra" then
    match out_dim with
    | none => .error (.typeError "Value after * must be an iterable, not NoneType")
    | some od => .ok (dataShape.headD 0 :: od)
  else if data_type = "spectra" ∧ output_type = "spectra" then
    .error (.syntaxError "cannot use starred expression here")
  else
    .error (.typeError "Data not understood")

/-- Product of the dimensions of a shape tuple. -/
def shapeProd (s : List Nat) : Nat := s.foldl (fun a b => a * b) 1

/-- Element (i, j) of a batch given as rows. -/
def cellAt (p : List (List ℚ)) (i j : Nat) : ℚ := (p.getD i []).getD j 0

/-- Cell (i, j) of `np.mean(eprediction, axis=0)`. -/
def meanAt (preds : List (List (List ℚ))) (i j : Nat) : ℚ :=
  (preds.map (fun p => cellAt p i j)).sum / (preds.length : ℚ)

/-- Cell (i, j) of `np.var(eprediction, axis=0)`: np.var uses ddof=0, the
biased (population) estimator — the mean of squared deviations from the mean. -/
def varAt (preds : List (List (List ℚ))) (i j : Nat) : ℚ :=
  (preds.map (fun p => (cellAt p i j - meanAt preds i j) ^ 2)).sum / (preds.length : ℚ)

/-- `np.mean(·, axis=0)` of an (N, n0, t)-shaped stack given as nested lists. -/
def npMeanAxis0 (preds : List (List (List ℚ))) (n0 t : Nat) : List (List ℚ) :=
  (List.range n0).map (fun i => (List.range t).map (fun j => meanAt preds i j))

/-- `np.var(·, axis=0)` of an (N, n0, t)-shaped stack given as nested lists. -/
def npVarAxis0 (preds : List (List (List ℚ))) (n0 t : Nat) : List (List ℚ) :=
  (List.range n0).map (fun i => (List.range t).map (fun j => varAt preds i j))

/-- epredictor.py lines 93-106 (`ensemble_forward_`). Loading snapshot m into the
shared skeleton, moving it to the device and running
`self.forward_(data).cpu().numpy()` is abstracted as `forward m data`: the
member's forward output, a batch of `out_shape.headD 0` rows of
`shapeProd out_shape.tail` elements. Writing row i of the preallocated
`np.zeros((N, *out_shape))` accumulator requires every member output to have
exactly that shape (numpy raises a broadcast error otherwise). With N = 0 numpy
would return NaN arrays; here the 0/0 divisions return 0 — the claims all
require N ≥ 1. -/
def ensemble_forward_ {σ δ : Type} (forward : σ → δ → List (List ℚ)) (ensemble : List σ)
    (data : δ) (out_shape : List Nat) : Except PyErr (List (List ℚ) × List (List ℚ)) :=
  let n0 := out_shape.headD 0
  let t := shapeProd out_shape.tail
  let eprediction := ensemble.map (fun m => forward m data)
  if eprediction.all (fun p => p.length == n0 && p.all (fun row => row.length == t)) then
    .ok (npMeanAxis0 eprediction n0 t, npVarAxis0 eprediction n0 t)
  else .error (.valueError "could not broadcast input array")

/-- numpy slice assignment `acc[start : start + len(rows)] = rows` along the
leading axis; the written range must lie inside the accumulator. -/
def setRows (acc : List (List ℚ)) (start : Nat) (rows : List (List ℚ)) :
    Except PyErr (List (List ℚ)) :=
  if start + rows.length ≤ acc.length then
    .ok (acc.take start ++ rows ++ acc.drop (start + rows.length))
  else .error (.valueError "could not broadcast input array")

/-- epredictor.py lines 108-134 (`ensemble_batch_predict`). Progress printing
(`self.everbose`, line 121-122) has no semantic effect and is omitted. The loop
variable i leaks out of the for loop, so the remainder chunk is
`data[num_batches * batch_size :]`. The remainder call on line 131 builds its
out_shape argument as `(len(data_i, *self.output_shape[1:]))`: when
`output_shape[1:]` is non-empty this passes extra positional arguments to `len`
— TypeError — and when it is empty the plain parentheses leave a bare int,
which `np.zeros((N, *out_shape))` inside `ensemble_forward_` then fails to
unpack — also TypeError. Either way a non-empty remainder raises before its
results can be written. -/
def ensemble_batch_predict {σ δ : Type} (forward : σ → List δ → List (List ℚ))
    (ensemble : List σ) (output_shape : List Nat) (data : List δ) (num_batches : Nat) :
    Except PyErr (List (List ℚ) × List (List ℚ)) :=
  if num_batches = 0 then .error .zeroDivisionError
  else
    let bs0 := data.length / num_batches
    let nb := if bs0 < 1 then 1 else num_batches
    let bs := if bs0 < 1 then 1 else bs0
    let t := shapeProd output_shape.tail
    let init : List (List ℚ) := List.replicate (output_shape.headD 0) (List.replicate t 0)
    let step : List (List ℚ) × List (List ℚ) → Nat →
        Except PyErr (List (List ℚ) × List (List ℚ)) := fun acc i =>
      let data_i := (data.drop (i * bs)).take bs
      match ensemble_forward_ forward ensemble data_i (bs :: output_shape.tail) with
      | .error e => .error e
      | .ok (pm, pv) =>
        match setRows acc.1 (i * bs) pm, setRows acc.2 (i * bs) pv with
        | .ok accm, .ok accv => .ok (accm, accv)
        | .error e, _ => .error e
        | _, .error e => .error e
    let looped := (List.range nb).foldlM step (init, init)
    match looped with
    | .error e => .error e
    | .ok acc =>
      let data_rem := data.drop (nb * bs)
      if data_rem.isEmpty then .ok acc
      else if output_shape.tail ≠ [] then
        .error (.typeError "len() takes exactly one argument (2 given)")
      else
        .error (.typeError "Value after * must be an iterable, not int")

deriving instance DecidableEq for Except

/-! ## General helpers -/

/-- Boolean equality on rationals agrees with propositional equality. -/
theorem rat_beq_true {a b : ℚ} (h : a = b) : (a == b) = true := by
  subst h; simp

/-- Boolean inequality on rationals agrees with propositional inequality. -/
theorem rat_beq_false {a b : ℚ} (h : ¬ a = b) : (a == b) = false := by
  simpa using h

theorem getD_mem {α : Type} (l : List α) (i : Nat) (d : α) (h : i < l.length) :
    l.getD i d ∈ l := by
  induction l generalizing i with
  | nil => simp at h
  | cons a t ih =>
    cases i with
    | zero => simp [List.getD]
    | succ n =>
      simp only [List.getD_cons_succ]
      exact List.mem_cons_of_mem _ (ih n (by simpa using h))

theorem rangeMap_getD {α : Type} (d : α) (l : List α) :
    (List.range l.length).map (fun i => l.getD i d) = l := by
  induction l with
  | nil => simp
  | cons a t ih =>
    rw [List.length_cons, List.range_succ_eq_map, List.map_cons, List.map_map]
    have h : ((fun i => (a :: t).getD i d) ∘ Nat.succ) = (fun i => t.getD i d) := by
      funext i; rfl
    rw [h, ih]
    rfl

/-! ## Claim theorems -/

/-- C1. The claim says construction with an unsupported output_type fails with
the "Supported output types" error (it does), and that construction with
data_type="image", output_type="spectra" and no out_dim fails with an error
instructing the caller to supply both dimensions. In the code as written the
guard on line 29 reads `all(in_dim, out_dim)`: the builtin `all` takes exactly
one argument, so every construction that survives the output_type check — the
missing-dimension case and fully valid configurations alike — raises
TypeError("all() takes exactly one argument (2 given)"), and the
"Specify input (in_dim) & output (out_dim) dimensions" message is unreachable. -/
theorem ensemble_predictor_init_always_raises :
    EnsemblePredictor_init "image" "spectra_typo" none none none
      = .error (.typeError "Supported output types are \x27image\x27 and \x27spectra\x27") ∧
    EnsemblePredictor_init "image" "spectra" none none none
      = .error (.typeError "all() takes exactly one argument (2 given)") ∧
    EnsemblePredictor_init "image" "image" none none none
      = .error (.typeError "all() takes exactly one argument (2 given)") := by
  refine ⟨rfl, rfl, rfl⟩

/-- C2. The decision table of `_set_output_shape` for an input batch of shape
(8, 64, 64): with data_type=output_type="image" and nb_classes=5 the shape is
(8, 64, 64, 5) as claimed, but with nb_classes unset the branch executes
`out_shape = (*data.shape)` (line 60) — a Python SyntaxError ("cannot use
starred expression here") that in fact prevents the module from even being
imported — instead of producing the input shape unchanged; the
spectra/spectra row fails the same way (line 69), and an unknown data_type
falls through to TypeError("Data not understood"). -/
theorem set_output_shape_decision_table_eval :
    _set_output_shape "image" "image" (some 5) none [8, 64, 64] = .ok [8, 64, 64, 5] ∧
    _set_output_shape "image" "image" none none [8, 64, 64]
      = .error (.syntaxError "cannot use starred expression here") ∧
    _set_output_shape "spectra" "image" (some 5) (some [32, 32]) [8, 256]
      = .ok [8, 32, 32, 5] ∧
    _set_output_shape "spectra" "image" none (some [32, 32]) [8, 256] = .ok [8, 32, 32] ∧
    _set_output_shape "image" "spectra" none (some [16]) [8, 64, 64] = .ok [8, 16] ∧
    _set_output_shape "spectra" "spectra" none none [8, 16]
      = .error (.syntaxError "cannot use starred expression here") ∧
    _set_output_shape "video" "image" none none [8, 64, 64]
      = .error (.typeError "Data not understood") := by
  refine ⟨rfl, rfl, rfl, rfl, rfl, rfl, rfl⟩

/-- C4. With an input of length 10 and num_batches=10 (batch_size=1) every
sample is processed exactly once and the two accumulators are exactly the
concatenation of the per-batch results (here: a single-member ensemble whose
forward maps each sample x to the row [x], so the mean reproduces the input and
the variance is zero). But for an input whose length is not a multiple of the
batch size — length 11 here — the non-empty remainder chunk is NOT processed:
line 131 builds `(len(data_i, *self.output_shape[1:]))`, which calls `len` with
extra positional arguments and raises TypeError before `ensemble_forward_` can
run. -/
theorem ensemble_batch_predict_eval :
    ensemble_batch_predict (fun (_ : Unit) (chunk : List ℚ) => chunk.map (fun x => [x])) [()]
        [10, 1] [0, 1, 2, 3, 4, 5, 6, 7, 8, 9] 10
      = .ok ([[0], [1], [2], [3], [4], [5], [6], [7], [8], [9]],
             [[0], [0], [0], [0], [0], [0], [0], [0], [0], [0]]) ∧
    ensemble_batch_predict (fun (_ : Unit) (chunk : List ℚ) => chunk.map (fun x => [x])) [()]
        [11, 1] [0, 1, 2, 3, 4, 5, 6, 7, 8, 9, 10] 10
      = .error (.typeError "len() takes exactly one argument (2 given)") := by
  constructor
  · norm_num [ensemble_batch_predict, ensemble_forward_, npMeanAxis0, npVarAxis0, meanAt, varAt,
      cellAt, shapeProd, setRows, List.range_succ, List.foldlM, List.replicate]
    decide
  · norm_num [ensemble_batch_predict, ensemble_forward_, npMeanAxis0, npVarAxis0, meanAt, varAt,
      cellAt, shapeProd, setRows, List.range_succ, List.foldlM, List.replicate]
    decide

/-- Mean across a stack of identical batches is the batch itself, cellwise. -/
theorem meanAt_replicate (n : Nat) (hn : n ≠ 0) (x : List (List ℚ)) (i j : Nat) :
    meanAt (List.replicate n x) i j = cellAt x i j := by
  unfold meanAt
  rw [List.map_replicate, List.sum_replicate, nsmul_eq_mul, List.length_replicate]
  exact mul_div_cancel_left₀ _ (by exact_mod_cast hn)

/-- Population variance across a stack of identical batches is zero, cellwise. -/
theorem varAt_replicate (n : Nat) (hn : n ≠ 0) (x : List (List ℚ)) (i j : Nat) :
    varAt (List.replicate n x) i j = 0 := by
  unfold varAt
  rw [List.map_replicate, meanAt_replicate n hn, sub_self, List.sum_replicate]
  norm_num

/-- C3. For every ensemble of N >= 1 snapshots that are all equal, running one
batch through `ensemble_forward_` returns the single-model forward output as the
mean and an all-zero array of the same shape as the variance: the function
computes the elementwise mean and the elementwise biased (divide by N)
population variance across the N members, and N identical rows have mean equal
to the row and population variance zero. -/
theorem ensemble_forward_identical_snapshots {σ δ : Type} (forward : σ → δ → List (List ℚ))
    (ensemble : List σ) (data : δ) (out_shape : List Nat) (m0 : σ)
    (hhead : ensemble.head? = some m0)
    (hall : ∀ m ∈ ensemble, m = m0)
    (hrows : (forward m0 data).length = out_shape.headD 0)
    (hcols : ∀ row ∈ forward m0 data, row.length = shapeProd out_shape.tail) :
    ensemble_forward_ forward ensemble data out_shape
      = .ok (forward m0 data, (forward m0 data).map (fun row => row.map (fun _ => 0))) := by
  have hne : ensemble ≠ [] := by
    intro h
    rw [h] at hhead
    exact Option.noConfusion hhead
  have hn : ensemble.length ≠ 0 := by
    simpa [List.length_eq_zero] using hne
  have hx : ensemble.map (fun m => forward m data)
      = List.replicate ensemble.length (forward m0 data) := by
    have hmem : ∀ b ∈ ensemble.map (fun m => forward m data), b = forward m0 data := by
      intro b hb
      rcases List.mem_map.mp hb with ⟨m, hm, rfl⟩
      rw [hall m hm]
    calc ensemble.map (fun m => forward m data)
        = List.replicate (ensemble.map (fun m => forward m data)).length (forward m0 data) :=
          List.eq_replicate_length.mpr hmem
      _ = List.replicate ensemble.length (forward m0 data) := by rw [List.length_map]
  have hcond : (List.replicate ensemble.length (forward m0 data)).all
      (fun p => p.length == out_shape.headD 0
        && p.all (fun row => row.length == shapeProd out_shape.tail)) = true := by
    rw [List.all_eq_true]
    intro p hp
    rcases (List.mem_replicate.mp hp) with ⟨-, rfl⟩
    rw [Bool.and_eq_true, beq_iff_eq, List.all_eq_true]
    exact ⟨hrows, fun row hr => beq_iff_eq.mpr (hcols row hr)⟩
  have hmean : npMeanAxis0 (List.replicate ensemble.length (forward m0 data))
      (out_shape.headD 0) (shapeProd out_shape.tail) = forward m0 data := by
    unfold npMeanAxis0
    simp only [meanAt_replicate ensemble.length hn]
    rw [← hrows]
    have hinner : ∀ i ∈ List.range (forward m0 data).length,
        (List.range (shapeProd out_shape.tail)).map (fun j => cellAt (forward m0 data) i j)
          = (forward m0 data).getD i [] := by
      intro i hi
      rw [List.mem_range] at hi
      have hrow : ((forward m0 data).getD i []).length = shapeProd out_shape.tail :=
        hcols _ (getD_mem _ i [] hi)
      rw [← hrow]
      exact rangeMap_getD 0 ((forward m0 data).getD i [])
    rw [List.map_congr_left hinner]
    exact rangeMap_getD [] (forward m0 data)
  have hvar : npVarAxis0 (List.replicate ensemble.length (forward m0 data))
      (out_shape.headD 0) (shapeProd out_shape.tail)
      = (forward m0 data).map (fun row => row.map (fun _ => 0)) := by
    unfold npVarAxis0
    simp only [varAt_replicate ensemble.length hn]
    rw [← hrows]
    have hrhs : ∀ row ∈ forward m0 data,
        row.map (fun _ => (0 : ℚ)) = List.replicate (shapeProd out_shape.tail) 0 := by
      intro row hr
      rw [List.map_const', hcols row hr]
    rw [List.map_congr_left hrhs]
    have hlhs : ∀ i ∈ List.range (forward m0 data).length,
        (List.range (shapeProd out_shape.tail)).map (fun _ => (0 : ℚ))
          = List.replicate (shapeProd out_shape.tail) 0 := by
      intro i _
      rw [List.map_const', List.length_range]
    rw [List.map_congr_left hlhs, List.map_const', List.map_const', List.length_range]
  simp only [ensemble_forward_]
  rw [hx, hcond]
  simp only [if_true]
  rw [hmean, hvar]

/-- Witness for C3: a two-member ensemble whose members agree, with forward
output [[2, 3]] of shape (1, 2); the mean is that output and the variance is
the zero array of the same shape. -/
theorem ensemble_forward_identical_snapshots_witness :
    ensemble_forward_ (fun (_ : Unit) (_ : Unit) => [[(2 : ℚ), 3]]) [(), ()] () [1, 2]
      = .ok ([[2, 3]], [[0, 0]]) := by
  have h := ensemble_forward_identical_snapshots (fun (_ : Unit) (_ : Unit) => [[(2 : ℚ), 3]])
    [(), ()] () [1, 2] () rfl (fun m _ => rfl) rfl (by decide)
  exact h

/-- Membership of a key in an association list is the same as a successful
lookup. -/
theorem lookup_isSome_iff {κ ν : Type} [BEq κ] [LawfulBEq κ] (l : List (κ × ν)) (a : κ) :
    (l.lookup a).isSome ↔ a ∈ l.map Prod.fst := by
  induction l with
  | nil => simp [List.lookup]
  | cons p t ih =>
    obtain ⟨k, w⟩ := p
    by_cases h : a = k
    · simp [List.lookup, h]
    · have hb : (a == k) = false := beq_false_of_ne h
      simp [List.lookup, hb, ih, h]

/-- Unfolding a lookup past a head with a different key. -/
theorem lookup_cons_ne {κ ν : Type} [BEq κ] (a k : κ) (u : ν) (t : List (κ × ν))
    (h : (a == k) = false) : ((k, u) :: t).lookup a = t.lookup a := by
  rw [List.lookup_cons, h]

/-- With duplicate-free keys, filtering an association list down to one key and
projecting the values yields exactly the looked-up value. -/
theorem filter_map_snd_of_lookup_some {κ ν : Type} [BEq κ] [LawfulBEq κ]
    (l : List (κ × ν)) (hnd : (l.map Prod.fst).Nodup) (a : κ) (w : ν)
    (h : l.lookup a = some w) :
    (l.filter (fun nv => nv.1 == a)).map Prod.snd = [w] := by
  induction l with
  | nil => exact Option.noConfusion h
  | cons p t ih =>
    obtain ⟨k, u⟩ := p
    rw [List.map_cons, List.nodup_cons] at hnd
    by_cases hk : a = k
    · subst hk
      rw [List.lookup_cons_self] at h
      have hw : u = w := Option.some.inj h
      subst hw
      have hnil : t.filter (fun nv => nv.1 == a) = [] := by
        rw [List.filter_eq_nil_iff]
        intro nv hnv hpred
        have hmem : nv.1 ∈ t.map Prod.fst := List.mem_map_of_mem Prod.fst hnv
        rw [eq_of_beq hpred] at hmem
        exact hnd.1 hmem
      rw [List.filter_cons_of_pos (by simp), hnil, List.map_cons, List.map_nil]
    · have hb : (a == k) = false := beq_false_of_ne hk
      have hb2 : (k == a) = false := beq_false_of_ne (Ne.symm hk)
      rw [lookup_cons_ne a k u t hb] at h
      rw [List.filter_cons_of_neg (by simp [hb2])]
      exact ih hnd.2 h

/-- Flattening a list of singletons is a map. -/
theorem flatten_singletons {α β : Type} (f : α → β) (l : List α) :
    (l.map (fun a => [f a])).flatten = l.map f := by
  induction l with
  | nil => rfl
  | cons a t ih => simp [ih]

/-- When every model of the ensemble holds parameter n exactly once, the inner
double loop of `average_weights` collects exactly the per-model values of n, in
ensemble order. -/
theorem collect_eq_map_lookup (ens : List StateDict) (n : String)
    (hnd : ∀ d ∈ ens, (d.map Prod.fst).Nodup)
    (hsome : ∀ d ∈ ens, (d.lookup n).isSome) :
    collect ens n = ens.map (fun d => (d.lookup n).getD []) := by
  have h : ∀ d ∈ ens, (d.filter (fun nv => nv.1 == n)).map Prod.snd
      = [(d.lookup n).getD []] := by
    intro d hd
    obtain ⟨w, hw⟩ := Option.isSome_iff_exists.mp (hsome d hd)
    rw [filter_map_snd_of_lookup_some d (hnd d hd) n w hw, hw]
    rfl
  calc collect ens n
      = (ens.map (fun d => [(d.lookup n).getD []])).flatten := by
        unfold collect
        rw [List.map_congr_left h]
    _ = ens.map (fun d => (d.lookup n).getD []) := flatten_singletons _ _

theorem keys_dictUpdate (d : StateDict) (name : String) (v : List ℚ) :
    (dictUpdate d name v).map Prod.fst = d.map Prod.fst := by
  unfold dictUpdate
  rw [List.map_map]
  apply List.map_congr_left
  intro nv _
  by_cases h : nv.1 = name <;> simp [h]

/-- Unfolding `dictUpdate` past a cons cell. -/
theorem dictUpdate_cons (k : String) (u v : List ℚ) (name : String) (t : StateDict) :
    dictUpdate ((k, u) :: t) name v
      = (if k = name then (k, v) else (k, u)) :: dictUpdate t name v := rfl

theorem lookup_dictUpdate_self (d : StateDict) (name : String) (v : List ℚ)
    (h : (d.lookup name).isSome) :
    (dictUpdate d name v).lookup name = some v := by
  induction d with
  | nil => simp [List.lookup] at h
  | cons p t ih =>
    obtain ⟨k, u⟩ := p
    rw [dictUpdate_cons]
    by_cases hk : k = name
    · subst hk
      rw [if_pos rfl, List.lookup_cons_self]
    · have hb : (name == k) = false := beq_false_of_ne (Ne.symm hk)
      rw [lookup_cons_ne name k u t hb] at h
      rw [if_neg hk, lookup_cons_ne name k u _ hb]
      exact ih h

theorem lookup_dictUpdate_other (d : StateDict) (name : String) (v : List ℚ) (n2 : String)
    (h : n2 ≠ name) :
    (dictUpdate d name v).lookup n2 = d.lookup n2 := by
  induction d with
  | nil => rfl
  | cons p t ih =>
    obtain ⟨k, u⟩ := p
    rw [dictUpdate_cons]
    by_cases hk : k = name
    · subst hk
      have hb : (n2 == k) = false := beq_false_of_ne h
      rw [if_pos rfl, lookup_cons_ne n2 k v _ hb, lookup_cons_ne n2 k u t hb]
      exact ih
    · rw [if_neg hk]
      by_cases hn : n2 = k
      · subst hn
        rw [List.lookup_cons_self, List.lookup_cons_self]
      · have hb : (n2 == k) = false := beq_false_of_ne hn
        rw [lookup_cons_ne n2 k u _ hb, lookup_cons_ne n2 k u t hb]
        exact ih

theorem filter_dictUpdate_other (d : StateDict) (name : String) (v : List ℚ) (n2 : String)
    (h : n2 ≠ name) :
    ((dictUpdate d name v).filter (fun nv => nv.1 == n2)).map Prod.snd
      = (d.filter (fun nv => nv.1 == n2)).map Prod.snd := by
  induction d with
  | nil => rfl
  | cons p t ih =>
    obtain ⟨k, u⟩ := p
    rw [dictUpdate_cons]
    by_cases hk : k = name
    · subst hk
      have hb : (k == n2) = false := beq_false_of_ne (fun he => h he.symm)
      rw [if_pos rfl, List.filter_cons_of_neg (by simp [hb]),
        List.filter_cons_of_neg (by simp [hb])]
      exact ih
    · rw [if_neg hk]
      by_cases hn : k = n2
      · subst hn
        rw [List.filter_cons_of_pos (by simp), List.filter_cons_of_pos (by simp),
          List.map_cons, List.map_cons, ih]
      · have hb : (k == n2) = false := beq_false_of_ne hn
        rw [List.filter_cons_of_neg (by simp [hb]), List.filter_cons_of_neg (by simp [hb])]
        exact ih

theorem collect_updAt0_other (ens : List StateDict) (name : String) (v : List ℚ) (n2 : String)
    (h : n2 ≠ name) :
    collect (updAt0 ens name v) n2 = collect ens n2 := by
  cases ens with
  | nil => rfl
  | cons d0 rest =>
    unfold collect updAt0
    rw [List.map_cons, List.map_cons, List.flatten_cons, List.flatten_cons,
      filter_dictUpdate_other d0 name v n2 h]

/-- The outer loop of `average_weights` writes, for every processed parameter
name, the collected average into snapshot 0 and touches nothing else; later
iterations do not disturb already-written names, and collections for
still-unprocessed names see the original values. -/
theorem avgLoop_spec (ns : List String) :
    ∀ (d0 : StateDict) (rest : List StateDict), ns.Nodup →
    (∀ n ∈ ns, (d0.lookup n).isSome) →
    ∃ d1, avgLoop ns (d0 :: rest) = d1 :: rest ∧
      d1.map Prod.fst = d0.map Prod.fst ∧
      (∀ n, n ∉ ns → d1.lookup n = d0.lookup n) ∧
      (∀ n ∈ ns, d1.lookup n
        = some (divTensor (sumTensors (collect (d0 :: rest) n))
            (collect (d0 :: rest) n).length)) := by
  induction ns with
  | nil =>
    intro d0 rest _ _
    exact ⟨d0, rfl, rfl, fun n _ => rfl, fun n hn => absurd hn (List.not_mem_nil n)⟩
  | cons n0 ns ih =>
    intro d0 rest hnd hsome
    rw [List.nodup_cons] at hnd
    have hs0 : (d0.lookup n0).isSome := hsome n0 (List.mem_cons_self n0 ns)
    set avg0 := divTensor (sumTensors (collect (d0 :: rest) n0))
      (collect (d0 :: rest) n0).length with havg0
    have hstep : avgLoop (n0 :: ns) (d0 :: rest)
        = avgLoop ns (dictUpdate d0 n0 avg0 :: rest) := rfl
    have hsome2 : ∀ n ∈ ns, ((dictUpdate d0 n0 avg0).lookup n).isSome := by
      intro n hn
      have hne : n ≠ n0 := fun he => hnd.1 (he ▸ hn)
      rw [lookup_dictUpdate_other d0 n0 avg0 n hne]
      exact hsome n (List.mem_cons_of_mem n0 hn)
    obtain ⟨d1, heq, hkeys, hout, hin⟩ := ih (dictUpdate d0 n0 avg0) rest hnd.2 hsome2
    refine ⟨d1, hstep.trans heq, hkeys.trans (keys_dictUpdate d0 n0 avg0), ?_, ?_⟩
    · intro n hn
      have hn1 : n ∉ ns := fun hm => hn (List.mem_cons_of_mem n0 hm)
      have hn0 : n ≠ n0 := fun he => hn (he ▸ List.mem_cons_self n0 ns)
      rw [hout n hn1]
      exact lookup_dictUpdate_other d0 n0 avg0 n hn0
    · intro n hn
      rcases List.mem_cons.mp hn with rfl | hn2
      · rw [hout n hnd.1, lookup_dictUpdate_self d0 n avg0 hs0]
      · have hne : n ≠ n0 := fun he => hnd.1 (he ▸ hn2)
        rw [hin n hn2]
        have hcoll : collect (dictUpdate d0 n0 avg0 :: rest) n = collect (d0 :: rest) n :=
          collect_updAt0_other (d0 :: rest) n0 avg0 n hne
        rw [hcoll]

theorem length_vecAdd (a b : List ℚ) (h : a.length = b.length) :
    (vecAdd a b).length = a.length := by
  simp [vecAdd, h]

theorem getD_vecAdd (a b : List ℚ) (j : Nat) (hja : j < a.length) (hjb : j < b.length) :
    (vecAdd a b).getD j 0 = a.getD j 0 + b.getD j 0 := by
  induction a generalizing b j with
  | nil => simp at hja
  | cons x xs ih =>
    cases b with
    | nil => simp at hjb
    | cons y ys =>
      cases j with
      | zero => simp [vecAdd]
      | succ i =>
        have := ih ys i (by simpa using hja) (by simpa using hjb)
        simpa [vecAdd] using this

theorem foldl_vecAdd_spec (L : Nat) (vs : List (List ℚ)) :
    ∀ (acc : List ℚ), acc.length = L → (∀ v ∈ vs, v.length = L) →
    (vs.foldl vecAdd acc).length = L ∧
    ∀ j, j < L → (vs.foldl vecAdd acc).getD j 0
      = acc.getD j 0 + (vs.map (fun v => v.getD j 0)).sum := by
  induction vs with
  | nil => intro acc hacc _; exact ⟨hacc, fun j _ => by simp⟩
  | cons v t ih =>
    intro acc hacc hall
    have hv : v.length = L := hall v (List.mem_cons_self v t)
    have hlen : (vecAdd acc v).length = L := by
      rw [length_vecAdd acc v (hacc.trans hv.symm)]
      exact hacc
    obtain ⟨h1, h2⟩ := ih (vecAdd acc v) hlen (fun u hu => hall u (List.mem_cons_of_mem v hu))
    refine ⟨h1, fun j hj => ?_⟩
    rw [List.foldl_cons, h2 j hj,
      getD_vecAdd acc v j (hacc ▸ hj) (hv ▸ hj), List.map_cons, List.sum_cons]
    ring

theorem sumTensors_spec (L : Nat) (vs : List (List ℚ)) (hne : vs ≠ [])
    (hlen : ∀ v ∈ vs, v.length = L) :
    (sumTensors vs).length = L ∧
    ∀ j, j < L → (sumTensors vs).getD j 0 = (vs.map (fun v => v.getD j 0)).sum := by
  cases vs with
  | nil => exact absurd rfl hne
  | cons v t =>
    have hv : v.length = L := hlen v (List.mem_cons_self v t)
    obtain ⟨h1, h2⟩ := foldl_vecAdd_spec L t v hv (fun u hu => hlen u (List.mem_cons_of_mem v hu))
    exact ⟨h1, fun j hj => by rw [show sumTensors (v :: t) = t.foldl vecAdd v from rfl,
      h2 j hj, List.map_cons, List.sum_cons]⟩

theorem length_divTensor (v : List ℚ) (n : Nat) : (divTensor v n).length = v.length := by
  simp [divTensor]

theorem getD_divTensor (v : List ℚ) (n : Nat) (j : Nat) (hj : j < v.length) :
    (divTensor v n).getD j 0 = v.getD j 0 / (n : ℚ) := by
  induction v generalizing j with
  | nil => simp at hj
  | cons x xs ih =>
    cases j with
    | zero => simp [divTensor]
    | succ i => simpa [divTensor] using ih i (by simpa using hj)

/-- C5. `average_weights`, on a non-empty ensemble of structurally identical
snapshots, returns a snapshot mapping each parameter name to the elementwise
mean of that parameter across all snapshots; the returned mapping is exactly the
post-call content of the snapshot stored at index 0, which has been overwritten
in place (the rest of the ensemble is untouched) — the value-level rendering of
the "returned dict is the very same object as ensemble[0]" contract. -/
theorem average_weights_spec (d0 : StateDict) (rest : List StateDict)
    (hnd : (d0.map Prod.fst).Nodup)
    (hkeys : ∀ d ∈ d0 :: rest, d.map Prod.fst = d0.map Prod.fst)
    (hlen : ∀ d ∈ d0 :: rest, ∀ n w w0, d.lookup n = some w → d0.lookup n = some w0 →
      w.length = w0.length) :
    ∃ ens₁ r, average_weights (d0 :: rest) = .ok (ens₁, r) ∧
      ens₁ = r :: rest ∧
      r.map Prod.fst = d0.map Prod.fst ∧
      ∀ n w, d0.lookup n = some w →
        ∃ v, r.lookup n = some v ∧ v.length = w.length ∧
          ∀ j, j < w.length →
            v.getD j 0
              = ((d0 :: rest).map (fun d => ((d.lookup n).getD []).getD j 0)).sum
                / ((d0 :: rest).length : ℚ) := by
  have hsome0 : ∀ n ∈ d0.map Prod.fst, (d0.lookup n).isSome :=
    fun n hn => (lookup_isSome_iff d0 n).mpr hn
  obtain ⟨d1, heq, hkeys1, hout, hin⟩ := avgLoop_spec (d0.map Prod.fst) d0 rest hnd hsome0
  refine ⟨d1 :: rest, d1, ?_, rfl, hkeys1, ?_⟩
  · have hav : average_weights (d0 :: rest)
        = .ok (avgLoop (d0.map Prod.fst) (d0 :: rest),
          (avgLoop (d0.map Prod.fst) (d0 :: rest)).headD []) := rfl
    rw [hav, heq]
    rfl
  · intro n w hw
    have hnmem : n ∈ d0.map Prod.fst :=
      (lookup_isSome_iff d0 n).mp (Option.isSome_iff_exists.mpr ⟨w, hw⟩)
    have hv := hin n hnmem
    have hndall : ∀ d ∈ d0 :: rest, (d.map Prod.fst).Nodup :=
      fun d hd => (hkeys d hd) ▸ hnd
    have hsomeall : ∀ d ∈ d0 :: rest, (d.lookup n).isSome := by
      intro d hd
      rw [lookup_isSome_iff, hkeys d hd]
      exact hnmem
    have hCeq : collect (d0 :: rest) n = (d0 :: rest).map (fun d => (d.lookup n).getD []) :=
      collect_eq_map_lookup (d0 :: rest) n hndall hsomeall
    have hClen : ∀ u ∈ collect (d0 :: rest) n, u.length = w.length := by
      intro u hu
      rw [hCeq] at hu
      rcases List.mem_map.mp hu with ⟨d, hd, rfl⟩
      obtain ⟨w2, hw2⟩ := Option.isSome_iff_exists.mp (hsomeall d hd)
      rw [hw2]
      simpa using hlen d hd n w2 w hw2 hw
    have hCne : collect (d0 :: rest) n ≠ [] := by
      rw [hCeq]
      simp
    obtain ⟨hslen, hsgetD⟩ := sumTensors_spec w.length (collect (d0 :: rest) n) hCne hClen
    refine ⟨divTensor (sumTensors (collect (d0 :: rest) n)) (collect (d0 :: rest) n).length,
      hv, ?_, ?_⟩
    · rw [length_divTensor, hslen]
    · intro j hj
      rw [getD_divTensor _ _ j (by rw [hslen]; exact hj), hsgetD j hj]
      rw [hCeq, List.map_map, List.length_map]
      rfl

/-- Witness for C5 at the claim's example ensemble: two snapshots with the
single parameter "w" holding [2, 4] and [0, 0]; the averaged snapshot maps "w"
to [1, 2], and the returned dict equals the post-call snapshot at index 0. -/
theorem average_weights_spec_witness :
    (∃ ens₁ r, average_weights ([("w", [2, 4])] :: [[("w", [0, 0])]]) = .ok (ens₁, r) ∧
      ens₁ = r :: [[("w", [0, 0])]] ∧
      r.map Prod.fst = ([("w", [2, 4])] : StateDict).map Prod.fst ∧
      ∀ n w, ([("w", [2, 4])] : StateDict).lookup n = some w →
        ∃ v, r.lookup n = some v ∧ v.length = w.length ∧
          ∀ j, j < w.length →
            v.getD j 0 = ((([("w", [2, 4])] :: [[("w", [0, 0])]]).map
                (fun d => ((d.lookup n).getD []).getD j 0)).sum)
              / ((([("w", [2, 4])] :: [[("w", [0, 0])]]).length : ℚ))) ∧
    average_weights [[("w", [2, 4])], [("w", [0, 0])]]
      = .ok ([[("w", [1, 2])], [("w", [0, 0])]], [("w", [1, 2])]) := by
  constructor
  · refine average_weights_spec [("w", [2, 4])] [[("w", [0, 0])]] (by decide) (by decide) ?_
    intro d hd n w w0 h1 h2
    by_cases hn : n = "w"
    · subst hn
      rw [List.lookup_cons_self] at h2
      have hw0 : w0 = [2, 4] := (Option.some.inj h2).symm
      subst hw0
      rcases List.mem_cons.mp hd with rfl | hd2
      · rw [List.lookup_cons_self] at h1
        rw [← Option.some.inj h1]
      · rcases List.mem_cons.mp hd2 with rfl | hd3
        · rw [List.lookup_cons_self] at h1
          rw [← Option.some.inj h1]
          rfl
        · exact absurd hd3 (List.not_mem_nil d)
    · have hb := beq_false_of_ne hn
      rw [lookup_cons_ne n "w" _ _ hb] at h2
      exact Option.noConfusion h2
  · norm_num [average_weights, avgLoop, collect, updAt0, dictUpdate, sumTensors, vecAdd,
      divTensor]

theorem mem_insertSorted (x a : ℚ) (l : List ℚ) :
    a ∈ insertSorted x l ↔ a = x ∨ a ∈ l := by
  induction l with
  | nil => simp [insertSorted]
  | cons y ys ih =>
    unfold insertSorted
    by_cases h1 : x < y
    · rw [if_pos h1]
      simp [List.mem_cons]
    · by_cases h2 : x = y
      · subst h2
        rw [if_neg h1, if_pos rfl]
        simp [List.mem_cons]
      · rw [if_neg h1, if_neg h2]
        simp only [List.mem_cons, ih]
        tauto

theorem sorted_insertSorted (x : ℚ) (l : List ℚ) (hs : l.Sorted (fun a b => a < b)) :
    (insertSorted x l).Sorted (fun a b => a < b) := by
  induction l with
  | nil => simp [insertSorted]
  | cons y ys ih =>
    rw [List.sorted_cons] at hs
    unfold insertSorted
    by_cases h1 : x < y
    · rw [if_pos h1, List.sorted_cons]
      refine ⟨?_, List.sorted_cons.mpr hs⟩
      intro b hb
      rcases List.mem_cons.mp hb with rfl | hb2
      · exact h1
      · exact lt_trans h1 (hs.1 b hb2)
    · by_cases h2 : x = y
      · rw [if_neg h1, if_pos h2]
        exact List.sorted_cons.mpr hs
      · rw [if_neg h1, if_neg h2, List.sorted_cons]
        have hyx : y < x := lt_of_le_of_ne (not_lt.mp h1) (fun he => h2 he.symm)
        refine ⟨?_, ih hs.2⟩
        intro b hb
        rcases (mem_insertSorted x b ys).mp hb with rfl | hb2
        · exact hyx
        · exact hs.1 b hb2

/-- `np.unique` returns a sorted array. -/
theorem sorted_npUnique (xs : List ℚ) : (npUnique xs).Sorted (fun a b => a < b) := by
  induction xs with
  | nil => exact List.sorted_nil
  | cons a t ih => exact sorted_insertSorted a _ ih

/-- `np.unique` returns exactly the values present in the input. -/
theorem mem_npUnique (xs : List ℚ) (a : ℚ) : a ∈ npUnique xs ↔ a ∈ xs := by
  induction xs with
  | nil => simp [npUnique]
  | cons b t ih =>
    show a ∈ insertSorted b (npUnique t) ↔ _
    rw [mem_insertSorted, ih, List.mem_cons]

/-- `np.unique` returns an array without duplicates. -/
theorem nodup_npUnique (xs : List ℚ) : (npUnique xs).Nodup :=
  (sorted_npUnique xs).nodup

/-- The dict comprehension of `renumerate_classes_` maps each distinct value to
itself minus its rank in the sorted distinct list. -/
theorem lookup_rank (u : List ℚ) : ∀ (k : Nat) (cl : ℚ), u.Nodup → cl ∈ u →
    (u.zip (List.zipWith (fun c (i : Nat) => c - (i : ℚ)) u (List.range' k u.length))).lookup cl
      = some (cl - ((k + u.indexOf cl : Nat) : ℚ)) := by
  induction u with
  | nil =>
    intro k cl _ h
    simp at h
  | cons y ys ih =>
    intro k cl hnd hmem
    rw [List.nodup_cons] at hnd
    rw [List.length_cons, List.range'_succ, List.zipWith_cons_cons, List.zip_cons_cons]
    by_cases h : cl = y
    · subst h
      rw [List.lookup_cons_self, List.indexOf_cons_self, Nat.add_zero]
    · have hb : (cl == y) = false := beq_false_of_ne h
      rw [lookup_cons_ne cl y _ _ hb]
      have hmem2 : cl ∈ ys := by
        rcases List.mem_cons.mp hmem with rfl | h2
        · exact absurd rfl h
        · exact h2
      rw [ih (k + 1) cl hnd.2 hmem2, List.indexOf_cons_ne ys (fun he => h he.symm)]
      congr 1
      push_cast [Nat.succ_eq_add_one]
      ring

/-- C6. `renumerate_classes_` maps every label in its input to that label's
0-based rank among the sorted set of distinct labels present — `npUnique` is
that sorted duplicate-free set, and the rank is the index in it — then adds 1
to every label when start_from_1 is true; in particular [2, 2, 5, 5, 9] maps to
[1, 1, 2, 2, 3] with start_from_1=true and [0, 0, 1, 1, 2] with
start_from_1=false. -/
theorem renumerate_classes_rank_spec :
    (∀ (classes : List ℚ) (b : Bool),
      renumerate_classes_ classes b
        = classes.map (fun cl => ((npUnique classes).indexOf cl : ℚ)
            + (if b then 1 else 0))) ∧
    renumerate_classes_ [2, 2, 5, 5, 9] true = [1, 1, 2, 2, 3] ∧
    renumerate_classes_ [2, 2, 5, 5, 9] false = [0, 0, 1, 1, 2] := by
  refine ⟨?_, ?_, ?_⟩
  · intro classes b
    have hval : ∀ cl ∈ classes,
        cl - ((((npUnique classes).zip (List.zipWith (fun c (i : Nat) => c - (i : ℚ))
            (npUnique classes) (List.range (npUnique classes).length))).lookup cl).getD 0)
          = ((npUnique classes).indexOf cl : ℚ) := by
      intro cl hcl
      rw [List.range_eq_range', lookup_rank (npUnique classes) 0 cl (nodup_npUnique classes)
        ((mem_npUnique classes cl).mpr hcl), Option.getD_some]
      push_cast
      ring
    cases b with
    | false =>
      simp only [renumerate_classes_, if_neg Bool.false_ne_true]
      apply List.map_congr_left
      intro cl hcl
      rw [hval cl hcl, add_zero]
    | true =>
      simp only [renumerate_classes_, if_pos rfl]
      rw [List.map_map]
      apply List.map_congr_left
      intro cl hcl
      show (cl - _) + 1 = _
      rw [hval cl hcl, if_pos trivial]
  · norm_num [renumerate_classes_, npUnique, insertSorted, List.lookup, rat_beq_true,
      rat_beq_false]
  · norm_num [renumerate_classes_, npUnique, insertSorted, List.lookup, rat_beq_true,
      rat_beq_false]

/-- Replacing by m is idempotent on m: folding the group over m leaves m. -/
theorem foldl_replace_fixed (m : ℚ) (g : List ℚ) :
    g.foldl (fun y c => if y = c then m else y) m = m := by
  induction g with
  | nil => rfl
  | cons c cs ih =>
    rw [List.foldl_cons]
    show cs.foldl (fun y c => if y = c then m else y) (if m = c then m else m) = m
    rw [ite_self]
    exact ih

/-- Sequentially substituting each group element by m is, pointwise, the
membership test. -/
theorem foldl_replace_point (m : ℚ) (g : List ℚ) : ∀ (x : ℚ),
    g.foldl (fun y c => if y = c then m else y) x = if x ∈ g then m else x := by
  induction g with
  | nil => intro x; simp
  | cons c cs ih =>
    intro x
    rw [List.foldl_cons]
    by_cases hx : x = c
    · subst hx
      rw [if_pos rfl, foldl_replace_fixed, if_pos (List.mem_cons_self x cs)]
    · rw [if_neg hx, ih x]
      by_cases hxs : x ∈ cs
      · rw [if_pos hxs, if_pos (List.mem_cons_of_mem c hxs)]
      · rw [if_neg hxs, if_neg (by simp [List.mem_cons, hx, hxs])]

/-- A fold of elementwise maps is the map of the pointwise fold. -/
theorem foldl_map_fusion {α : Type} (φ : ℚ → α → ℚ) (g : List α) : ∀ (arr : List ℚ),
    g.foldl (fun a c => a.map (fun x => φ x c)) arr = arr.map (fun x => g.foldl φ x) := by
  induction g with
  | nil =>
    intro arr
    rw [List.foldl_nil]
    exact (List.map_id' arr).symm
  | cons c cs ih =>
    intro arr
    rw [List.foldl_cons, ih, List.map_map]
    rfl

/-- C8. `combine_classes_` processes the groups in input order and, for each
group, replaces every occurrence of any label belonging to the group by the
group's minimum (`minD`); the claim's instance is settled in the witness. -/
theorem combine_classes_group_min_spec (gs : List (List ℚ)) : ∀ (xs : List ℚ),
    (∀ g ∈ gs, g ≠ []) →
    combine_classes_ xs gs
      = .ok (gs.foldl (fun arr g => arr.map (fun x => if x ∈ g then minD g else x)) xs) := by
  induction gs with
  | nil => intro xs _; rfl
  | cons g rest ih =>
    intro xs hgs
    obtain ⟨c, cs, rfl⟩ : ∃ c cs, g = c :: cs := by
      cases g with
      | nil => exact absurd rfl (hgs [] (List.mem_cons_self [] rest))
      | cons c cs => exact ⟨c, cs, rfl⟩
    have hstep : combine_classes_ xs ((c :: cs) :: rest)
        = combine_classes_
            ((c :: cs).foldl
              (fun a cc => a.map (fun x => if x = cc then minD (c :: cs) else x)) xs)
            rest := rfl
    rw [hstep, ih _ (fun g2 hg2 => hgs g2 (List.mem_cons_of_mem _ hg2))]
    have hA : (c :: cs).foldl
        (fun a cc => a.map (fun x => if x = cc then minD (c :: cs) else x)) xs
        = xs.map (fun x => if x ∈ (c :: cs) then minD (c :: cs) else x) := by
      rw [foldl_map_fusion (fun x cc => if x = cc then minD (c :: cs) else x) (c :: cs) xs]
      apply List.map_congr_left
      intro x _
      exact foldl_replace_point (minD (c :: cs)) (c :: cs) x
    rw [hA, List.foldl_cons]

/-- Witness for C8 at the claim's instance: [1, 2, 3, 4] with group [2, 3] maps
to [1, 2, 2, 4] — both 2 and 3 replaced by the group minimum 2. -/
theorem combine_classes_group_min_spec_witness :
    combine_classes_ [1, 2, 3, 4] [[2, 3]] = .ok [1, 2, 2, 4] := by
  have h := combine_classes_group_min_spec [[2, 3]] [1, 2, 3, 4] (by decide)
  refine h.trans ?_
  norm_num [minD]

theorem keys_dictSet (d : CoordDict) (k : Nat) (m : Mat) :
    keysOf (dictSet d k m) = keysOf d := by
  unfold keysOf dictSet
  rw [List.map_map]
  apply List.map_congr_left
  intro kv _
  by_cases h : kv.1 = k <;> simp [h]

theorem dictSet_cons (k0 : Nat) (m0 : Mat) (k : Nat) (m : Mat) (t : CoordDict) :
    dictSet ((k0, m0) :: t) k m
      = (if k0 = k then (k0, m) else (k0, m0)) :: dictSet t k m := rfl

theorem lookup_dictSet_self (d : CoordDict) (k : Nat) (m : Mat)
    (h : (d.lookup k).isSome) : (dictSet d k m).lookup k = some m := by
  induction d with
  | nil => simp [List.lookup] at h
  | cons p t ih =>
    obtain ⟨k0, m0⟩ := p
    rw [dictSet_cons]
    by_cases hk : k0 = k
    · subst hk
      rw [if_pos rfl, List.lookup_cons_self]
    · have hb : (k == k0) = false := beq_false_of_ne (Ne.symm hk)
      rw [lookup_cons_ne k k0 m0 t hb] at h
      rw [if_neg hk, lookup_cons_ne k k0 m0 _ hb]
      exact ih h

theorem lookup_dictSet_other (d : CoordDict) (k : Nat) (m : Mat) (k2 : Nat)
    (h : k2 ≠ k) : (dictSet d k m).lookup k2 = d.lookup k2 := by
  induction d with
  | nil => rfl
  | cons p t ih =>
    obtain ⟨k0, m0⟩ := p
    rw [dictSet_cons]
    by_cases hk : k0 = k
    · subst hk
      have hb : (k2 == k0) = false := beq_false_of_ne h
      rw [if_pos rfl, lookup_cons_ne k2 k0 m _ hb, lookup_cons_ne k2 k0 m0 t hb]
      exact ih
    · rw [if_neg hk]
      by_cases hn : k2 = k0
      · subst hn
        rw [List.lookup_cons_self, List.lookup_cons_self]
      · have hb : (k2 == k0) = false := beq_false_of_ne hn
        rw [lookup_cons_ne k2 k0 m0 _ hb, lookup_cons_ne k2 k0 m0 t hb]
        exact ih

/-- What a successful run of the shared per-entry loop guarantees: all iterated
indices were found, keys are unchanged, entries at untouched keys are unchanged,
and every entry at an iterated key holds its original array with the last column
overwritten by the transform of the original last column. -/
theorem applyLastColAux_ok_spec (g : List ℚ → Except PyErr (List ℚ)) (idxs : List Nat) :
    ∀ (d d2 : CoordDict), (keysOf d).Nodup → idxs.Nodup →
    applyLastColAux g idxs d = .ok d2 →
    keysOf d2 = keysOf d ∧
    (∀ i ∈ idxs, (d.lookup i).isSome) ∧
    (∀ k, k ∉ idxs → d2.lookup k = d.lookup k) ∧
    (∀ k, k ∈ idxs → ∀ m, d.lookup k = some m →
      ∃ v, g (lastCol m) = .ok v ∧ d2.lookup k = some (setLastCol m v)) := by
  induction idxs with
  | nil =>
    intro d d2 _ _ h
    have hd : d = d2 := Except.ok.inj h
    subst hd
    exact ⟨rfl, fun i hi => absurd hi (List.not_mem_nil i),
      fun k _ => rfl, fun k hk => absurd hk (List.not_mem_nil k)⟩
  | cons i rest ih =>
    intro d d2 hnd hidx h
    rw [List.nodup_cons] at hidx
    cases hl : d.lookup i with
    | none =>
      simp only [applyLastColAux, hl] at h
      exact Except.noConfusion h
    | some m =>
      cases hg : g (lastCol m) with
      | error e =>
        simp only [applyLastColAux, hl, hg] at h
        exact Except.noConfusion h
      | ok v =>
        simp only [applyLastColAux, hl, hg] at h
        have hndk : (keysOf (dictSet d i (setLastCol m v))).Nodup := by
          rw [keys_dictSet]
          exact hnd
        obtain ⟨hkeys, hsome, hout, hin⟩ := ih (dictSet d i (setLastCol m v)) d2 hndk hidx.2 h
        refine ⟨hkeys.trans (keys_dictSet d i (setLastCol m v)), ?_, ?_, ?_⟩
        · intro j hj
          rcases List.mem_cons.mp hj with rfl | hj2
          · rw [hl]; rfl
          · have hji : j ≠ i := fun he => hidx.1 (he ▸ hj2)
            have := hsome j hj2
            rw [lookup_dictSet_other d i (setLastCol m v) j hji] at this
            exact this
        · intro k hk
          have hk1 : k ∉ rest := fun hm => hk (List.mem_cons_of_mem i hm)
          have hk0 : k ≠ i := fun he => hk (he ▸ List.mem_cons_self i rest)
          rw [hout k hk1]
          exact lookup_dictSet_other d i (setLastCol m v) k hk0
        · intro k hk m2 hm2
          rcases List.mem_cons.mp hk with rfl | hk2
          · have hmm : m2 = m := by
              rw [hl] at hm2
              exact (Option.some.inj hm2).symm
            subst hmm
            refine ⟨v, hg, ?_⟩
            rw [hout k hidx.1]
            exact lookup_dictSet_self d k (setLastCol m2 v) (by rw [hm2]; rfl)
          · have hki : k ≠ i := fun he => hidx.1 (he ▸ hk2)
            have hlk : (dictSet d i (setLastCol m v)).lookup k = some m2 := by
              rw [lookup_dictSet_other d i (setLastCol m v) k hki]
              exact hm2
            exact hin k hk2 m2 hlk

/-- When some iterated index is absent from the dictionary and the column
transform itself never fails, the shared loop fails with a KeyError. -/
theorem applyLastColAux_missing_err (g : List ℚ → Except PyErr (List ℚ))
    (hg : ∀ col, ∃ v, g col = .ok v) (idxs : List Nat) :
    ∀ (d : CoordDict), (∃ i ∈ idxs, d.lookup i = none) →
    ∃ k, applyLastColAux g idxs d = .error (.keyError k) := by
  induction idxs with
  | nil =>
    intro d ⟨i, hi, _⟩
    exact absurd hi (List.not_mem_nil i)
  | cons i rest ih =>
    intro d ⟨i0, hi0mem, hi0none⟩
    cases hl : d.lookup i with
    | none =>
      refine ⟨i, ?_⟩
      simp only [applyLastColAux, hl]
    | some m =>
      obtain ⟨v, hv⟩ := hg (lastCol m)
      have hstep : applyLastColAux g (i :: rest) d
          = applyLastColAux g rest (dictSet d i (setLastCol m v)) := by
        simp only [applyLastColAux, hl, hv]
      have hne : i0 ≠ i := by
        intro he
        rw [he, hl] at hi0none
        exact Option.noConfusion hi0none
      have hi0mem2 : i0 ∈ rest := by
        rcases List.mem_cons.mp hi0mem with he | h2
        · exact absurd he hne
        · exact h2
      have hnone2 : (dictSet d i (setLastCol m v)).lookup i0 = none := by
        rw [lookup_dictSet_other d i (setLastCol m v) i0 hne]
        exact hi0none
      obtain ⟨k, hk⟩ := ih (dictSet d i (setLastCol m v)) ⟨i0, hi0mem2, hnone2⟩
      exact ⟨k, hstep.trans hk⟩

/-- If every position below the dictionary length is a present key and keys are
duplicate-free, then every present key lies below the length: the key set is
exactly the contiguous range. -/
theorem mem_keys_lt_of_contiguous (d : CoordDict) (hnd : (keysOf d).Nodup)
    (hall : ∀ i, i < d.length → (d.lookup i).isSome) :
    ∀ k ∈ keysOf d, k < d.length := by
  have hsub : Finset.range d.length ⊆ (keysOf d).toFinset := by
    intro i hi
    rw [Finset.mem_range] at hi
    rw [List.mem_toFinset]
    exact (lookup_isSome_iff d i).mp (hall i hi)
  have hcard : (keysOf d).toFinset.card = d.length := by
    rw [List.toFinset_card_of_nodup hnd]
    exact List.length_map d Prod.fst
  have heq : Finset.range d.length = (keysOf d).toFinset :=
    Finset.eq_of_subset_of_card_le hsub (by rw [hcard, Finset.card_range])
  intro k hk
  have hk2 : k ∈ Finset.range d.length := heq ▸ List.mem_toFinset.mpr hk
  exact Finset.mem_range.mp hk2

theorem length_lastCol (m : Mat) : (lastCol m).length = m.length := by
  simp [lastCol]

theorem dropLast_set_last (row : List ℚ) (x : ℚ) :
    (row.set (row.length - 1) x).dropLast = row.dropLast := by
  rw [List.dropLast_eq_take, List.length_set, List.set_take]
  rw [List.set_eq_of_length_le]
  · exact (List.dropLast_eq_take row).symm
  · rw [List.length_take]
    exact min_le_left _ _

theorem map_length_setLastCol (m : Mat) : ∀ (v : List ℚ), v.length = m.length →
    (setLastCol m v).map (fun r => r.length) = m.map (fun r => r.length) := by
  induction m with
  | nil => intro v _; rfl
  | cons row t ih =>
    intro v hv
    cases v with
    | nil => simp at hv
    | cons x v2 =>
      show ((row.set (row.length - 1) x).length :: (setLastCol t v2).map (fun r => r.length))
        = row.length :: t.map (fun r => r.length)
      rw [List.length_set, ih v2 (by simpa using hv)]

theorem coordPart_setLastCol (m : Mat) : ∀ (v : List ℚ), v.length = m.length →
    coordPart (setLastCol m v) = coordPart m := by
  induction m with
  | nil => intro v _; rfl
  | cons row t ih =>
    intro v hv
    cases v with
    | nil => simp at hv
    | cons x v2 =>
      show (row.set (row.length - 1) x).dropLast :: coordPart (setLastCol t v2)
        = row.dropLast :: coordPart t
      rw [dropLast_set_last, ih v2 (by simpa using hv)]

/-- The per-element transforms of nn.py keep column length: renumeration is a
map (plus an optional shift map). -/
theorem length_renumerate_classes_ (col : List ℚ) (b : Bool) :
    (renumerate_classes_ col b).length = col.length := by
  unfold renumerate_classes_
  cases b <;> simp

/-- A fold of elementwise maps keeps the array length. -/
theorem length_foldl_map {α : Type} (φ : ℚ → α → ℚ) (g : List α) (arr : List ℚ) :
    (g.foldl (fun a c => a.map (fun x => φ x c)) arr).length = arr.length := by
  rw [foldl_map_fusion]
  exact List.length_map arr _

/-- `combine_classes_` keeps the column length whenever it succeeds. -/
theorem length_combine_classes_ (gs : List (List ℚ)) : ∀ (col v : List ℚ),
    combine_classes_ col gs = .ok v → v.length = col.length := by
  induction gs with
  | nil =>
    intro col v h
    rw [← Except.ok.inj h]
  | cons comb rest ih =>
    intro col v h
    cases hgm : pyMin comb with
    | error e =>
      have hcc : combine_classes_ col (comb :: rest) = .error e := by
        simp only [combine_classes_, List.foldlM_cons, hgm]
        rfl
      rw [hcc] at h
      exact Except.noConfusion h
    | ok cmin =>
      have hstep : combine_classes_ col (comb :: rest)
          = combine_classes_
              (comb.foldl (fun a c => a.map (fun x => if x = c then cmin else x)) col)
              rest := by
        simp only [combine_classes_, List.foldlM_cons, hgm]
        rfl
      rw [hstep] at h
      rw [ih _ v h]
      exact length_foldl_map (fun x c => if x = c then cmin else x) comb col

/-- A successful pass of the shared loop over the full index range preserves
keys, row counts, row lengths and coordinate columns, provided the column
transform keeps the column length. -/
theorem applyLastColAux_shapePreserved (g : List ℚ → Except PyErr (List ℚ))
    (hglen : ∀ col v, g col = .ok v → v.length = col.length)
    (d d2 : CoordDict) (hnd : (keysOf d).Nodup)
    (h : applyLastColAux g (List.range d.length) d = .ok d2) :
    shapePreserved d d2 := by
  obtain ⟨hkeys, hsome, hout, hin⟩ :=
    applyLastColAux_ok_spec g (List.range d.length) d d2 hnd (List.nodup_range d.length) h
  have hlt : ∀ k ∈ keysOf d, k < d.length :=
    mem_keys_lt_of_contiguous d hnd (fun i hi => hsome i (List.mem_range.mpr hi))
  refine ⟨hkeys, ?_⟩
  intro k m hm
  have hkmem : k ∈ keysOf d := (lookup_isSome_iff d k).mp (by rw [hm]; rfl)
  obtain ⟨v, hv, hlk⟩ := hin k (List.mem_range.mpr (hlt k hkmem)) m hm
  have hvlen : v.length = m.length := by
    rw [hglen (lastCol m) v hv]
    exact length_lastCol m
  exact ⟨setLastCol m v, hlk, map_length_setLastCol m v hvlen,
    coordPart_setLastCol m v hvlen⟩

theorem shapePreserved_trans (d1 d2 d3 : CoordDict)
    (h12 : shapePreserved d1 d2) (h23 : shapePreserved d2 d3) :
    shapePreserved d1 d3 := by
  obtain ⟨hk12, he12⟩ := h12
  obtain ⟨hk23, he23⟩ := h23
  refine ⟨hk23.trans hk12, ?_⟩
  intro k m hm
  obtain ⟨m2, hm2, hl2, hc2⟩ := he12 k m hm
  obtain ⟨m3, hm3, hl3, hc3⟩ := he23 k m2 hm2
  exact ⟨m3, hm3, hl3.trans hl2, hc3.trans hc2⟩

/-- `combine_classes_` succeeds on every column when every group is non-empty. -/
theorem combine_classes_ok_of_nonempty (gs : List (List ℚ)) : ∀ (col : List ℚ),
    (∀ g ∈ gs, g ≠ []) → ∃ v, combine_classes_ col gs = .ok v := by
  induction gs with
  | nil => intro col _; exact ⟨col, rfl⟩
  | cons comb rest ih =>
    intro col hgs
    obtain ⟨c, cs, rfl⟩ : ∃ c cs, comb = c :: cs := by
      cases comb with
      | nil => exact absurd rfl (hgs [] (List.mem_cons_self [] rest))
      | cons c cs => exact ⟨c, cs, rfl⟩
    obtain ⟨v, hv⟩ := ih
      ((c :: cs).foldl (fun a cc => a.map (fun x => if x = cc then minD (c :: cs) else x)) col)
      (fun g hg => hgs g (List.mem_cons_of_mem _ hg))
    refine ⟨v, ?_⟩
    have hstep : combine_classes_ col ((c :: cs) :: rest)
        = combine_classes_
            ((c :: cs).foldl
              (fun a cc => a.map (fun x => if x = cc then minD (c :: cs) else x)) col)
            rest := rfl
    rw [hstep]
    exact hv

/-- C7. `renumerate_classes` produces the same result for both values of the
caller-supplied start_from_1 flag — the inner call hard-codes True (nn.py line
200) — and on success every present entry of the deep copy holds its original
array with the last column replaced by `renumerate_classes_` of the original
last column with start_from_1 forced to true; since that inner transform is the
rank-plus-one renumbering, class labels end up in a gap-free contiguous run
starting at 1 whatever flag the caller passed. -/
theorem renumerate_classes_forces_start_from_1 (d : CoordDict) (b : Bool) :
    renumerate_classes d b = renumerate_classes d true ∧
    ((keysOf d).Nodup → ∀ d2, renumerate_classes d b = .ok d2 →
      ∀ k m, d.lookup k = some m →
        d2.lookup k = some (setLastCol m (renumerate_classes_ (lastCol m) true))) := by
  refine ⟨rfl, ?_⟩
  intro hnd d2 h k m hm
  obtain ⟨hkeys, hsome, hout, hin⟩ := applyLastColAux_ok_spec _ (List.range d.length) d d2 hnd
    (List.nodup_range d.length) h
  have hlt := mem_keys_lt_of_contiguous d hnd (fun i hi => hsome i (List.mem_range.mpr hi))
  have hkmem : k ∈ keysOf d := (lookup_isSome_iff d k).mp (by rw [hm]; rfl)
  obtain ⟨v, hv, hlk⟩ := hin k (List.mem_range.mpr (hlt k hkmem)) m hm
  have hveq : renumerate_classes_ (lastCol m) true = v := Except.ok.inj hv
  rw [hlk, ← hveq]

/-- Witness for C7: a one-entry dictionary with rows [[3, 7]]; calling with
start_from_1=false still renumerates the class column to [1] (flag forced to
true), and the entry is the original array with only its last column replaced. -/
theorem renumerate_classes_forces_start_from_1_witness :
    ([((0 : Nat), [[(3 : ℚ), 1]])] : CoordDict).lookup 0
      = some (setLastCol [[(3 : ℚ), 7]] (renumerate_classes_ (lastCol [[(3 : ℚ), 7]]) true)) := by
  refine (renumerate_classes_forces_start_from_1 [(0, [[3, 7]])] false).2 ?_
    [(0, [[3, 1]])] ?_ 0 [[3, 7]] ?_
  · decide
  · norm_num [renumerate_classes, applyLastColAux, renumerate_classes_, npUnique, insertSorted,
      lastCol, setLastCol, dictSet, List.lookup, List.range_succ, rat_beq_true, rat_beq_false]
  · decide

/-- C9. `combine_classes` and `renumerate_classes` never mutate the dictionary
passed to them: the source deep-copies it before any in-place write, so under
the embedding's value semantics the caller's dictionary and every array in it
are unchanged, and the returned dictionary is a new one in which only the last
(class) column of each entry is transformed — keys, row counts, row lengths and
all coordinate columns are preserved. -/
theorem combine_renumerate_only_last_column (d : CoordDict) (gs : List (List ℚ))
    (b : Bool) (hnd : (keysOf d).Nodup) :
    (∀ d2, combine_classes d gs b = .ok d2 → shapePreserved d d2) ∧
    (∀ d2, renumerate_classes d b = .ok d2 → shapePreserved d d2) := by
  have hren : ∀ (dd : CoordDict) (bb : Bool) (d2 : CoordDict), (keysOf dd).Nodup →
      renumerate_classes dd bb = .ok d2 → shapePreserved dd d2 := by
    intro dd bb d2 hnd2 h
    refine applyLastColAux_shapePreserved _ ?_ dd d2 hnd2 h
    intro col v hv
    rw [← Except.ok.inj hv]
    exact length_renumerate_classes_ col true
  refine ⟨?_, fun d2 h => hren d b d2 hnd h⟩
  intro d2 h
  cases haux : applyLastColAux (fun col => combine_classes_ col gs) (List.range d.length) d with
  | error e =>
    have hcc : combine_classes d gs b = .error e := by
      simp only [combine_classes, haux]
    rw [hcc] at h
    exact Except.noConfusion h
  | ok d1 =>
    have h1 : shapePreserved d d1 :=
      applyLastColAux_shapePreserved _ (fun col v hv => length_combine_classes_ gs col v hv)
        d d1 hnd haux
    have hcc : combine_classes d gs b
        = if b then renumerate_classes d1 true else .ok d1 := by
      simp only [combine_classes, haux]
    rw [hcc] at h
    cases b with
    | false =>
      rw [if_neg Bool.false_ne_true] at h
      rw [← Except.ok.inj h]
      exact h1
    | true =>
      rw [if_pos rfl] at h
      have hnd1 : (keysOf d1).Nodup := by
        rw [h1.1]
        exact hnd
      exact shapePreserved_trans d d1 d2 h1 (hren d1 true d2 hnd1 h)

/-- Witness for C9: combining group [2, 3] then renumerating on the one-entry
dictionary with rows [[4, 2]] yields rows [[4, 1]] — same keys, same shape,
same coordinate column, only the class column changed. -/
theorem combine_renumerate_only_last_column_witness :
    shapePreserved [((0 : Nat), [[(4 : ℚ), 2]])] [((0 : Nat), [[(4 : ℚ), 1]])] := by
  refine (combine_renumerate_only_last_column [(0, [[4, 2]])] [[2, 3]] true (by decide)).1
    [(0, [[4, 1]])] ?_
  norm_num [combine_classes, renumerate_classes, applyLastColAux, combine_classes_,
    renumerate_classes_, npUnique, insertSorted, pyMin, lastCol, setLastCol, dictSet,
    List.lookup, List.range_succ, rat_beq_true, rat_beq_false]

/-- C10. Both dictionary transformers iterate the integer positions
0 .. len(dict)-1 and look each one up as a key, so whenever some position below
the length is not a present key — i.e. the key set is not exactly the
contiguous 0-based range — they fail with a KeyError instead of transforming
the present entries (for `combine_classes` the groups must be non-empty, else a
ValueError from `min` could fire first). -/
theorem combine_renumerate_key_error (d : CoordDict) (gs : List (List ℚ)) (b b2 : Bool)
    (hmiss : ∃ i, i < d.length ∧ d.lookup i = none)
    (hgs : ∀ g ∈ gs, g ≠ []) :
    (∃ k, combine_classes d gs b = .error (.keyError k)) ∧
    (∃ k, renumerate_classes d b2 = .error (.keyError k)) := by
  obtain ⟨i, hi, hnone⟩ := hmiss
  have hmem : ∃ j ∈ List.range d.length, d.lookup j = none :=
    ⟨i, List.mem_range.mpr hi, hnone⟩
  constructor
  · obtain ⟨k, hk⟩ := applyLastColAux_missing_err (fun col => combine_classes_ col gs)
      (fun col => combine_classes_ok_of_nonempty gs col hgs) (List.range d.length) d hmem
    refine ⟨k, ?_⟩
    simp only [combine_classes, hk]
  · obtain ⟨k, hk⟩ := applyLastColAux_missing_err (fun col => .ok (renumerate_classes_ col true))
      (fun col => ⟨renumerate_classes_ col true, rfl⟩) (List.range d.length) d hmem
    refine ⟨k, ?_⟩
    simp only [renumerate_classes, hk]

/-- Witness for C10: a two-entry dictionary with keys 0 and 2 (length 2, key 1
missing) makes both transformers fail with a KeyError. -/
theorem combine_renumerate_key_error_witness :
    (∃ k, combine_classes [(0, [[1]]), (2, [[1]])] [[1, 2]] true = .error (.keyError k)) ∧
    (∃ k, renumerate_classes [(0, [[1]]), (2, [[1]])] true = .error (.keyError k)) :=
  combine_renumerate_key_error [(0, [[1]]), (2, [[1]])] [[1, 2]] true true
    ⟨1, by decide, by decide⟩ (by decide)
